import Mathlib

/-!
Verification of the `KVStorage` template from `src/include/kvstorage.hpp`.

Shallow embedding conventions:

* Keys and values are byte strings, embedded as `List Nat` (C++ `std::string`
  compares byte-wise lexicographically; `keyLt` below is `operator<`).
* The clock: `Clock::now()` values are embedded as `Nat` instants.  An entry's
  `expire_time` (`TimePoint`) is embedded as `Option Nat`, with `none` standing
  for `TimePoint::max()` — the sentinel stored by `set` when `ttl == 0`.  Every
  attainable `now()` satisfies `TimePoint::max() > now`, so the liveness test
  `expire_time > clock_.now()` is embedded as: always true for `none`, and
  `now < t` for `some t`.
* `storage_` (the `std::map`) is embedded as a `List (Key × Entry)` kept
  strictly sorted by key; `insert_or_assign`, `erase` and `lower_bound` are
  embedded as the corresponding sorted-association-list operations.
* `key_to_storage_iter_` (the `std::unordered_map<string_view, iterator>`) maps
  a key to an iterator whose dereference, whenever the iterator is valid, is the
  `storage_` node holding exactly that key.  Its observable content is therefore
  its key set, embedded as a `List Key` (`fastKeys`); dereferencing a locator is
  embedded as ordered-index lookup (`mapFind`).  Dereferencing a dangling
  locator (a key present in `fastKeys` but not in `storage`) is undefined
  behavior in C++; the embedding of `get` returns `none` in that case.
* The mutating member functions are embedded as functions returning a pair of
  result and post-state; `const` members (`get`, `getManySorted`) are embedded
  in the same shape so that their frame properties are statable.
-/

set_option autoImplicit false

namespace KVStorage

/-- A byte-string key (`std::string`), one `Nat` per byte. -/
abbrev Key := List Nat

/-- A byte-string value (`std::string`). -/
abbrev Value := List Nat

/-- `expire_time : TimePoint`; `none` embeds `TimePoint::max()` ("never"). -/
abbrev ETime := Option Nat

/-- `struct Entry { std::string value; TimePoint expire_time; };` -/
structure Entry where
  value : Value
  expire_time : ETime
deriving Repr, DecidableEq

/-- The liveness test `entry.expire_time > clock_.now()` from `get` /
`getManySorted` (negated, it is the expiry test `expire_time <= now` from
`removeOneExpiredEntry`).  `TimePoint::max()` exceeds every attainable clock
reading, hence the `none` case is `true`. -/
def Entry.isAlive (e : Entry) (now : Nat) : Bool :=
  match e.expire_time with
  | none => true
  | some t => now < t

/-- Byte-wise lexicographic `operator<` on `std::string` (invariant I3):
compare element-wise; the first differing byte decides; a proper prefix is
smaller. -/
def keyLt : Key → Key → Bool
  | _, [] => false
  | [], _ :: _ => true
  | a :: as, b :: bs => if a < b then true else if b < a then false else keyLt as bs

/-- `storage_.insert_or_assign(key, entry)` on the sorted association list:
insert at the sorted position, or overwrite the entry when the key is already
present. -/
def mapInsert (k : Key) (e : Entry) : List (Key × Entry) → List (Key × Entry)
  | [] => [(k, e)]
  | (k0, e0) :: rest =>
    if keyLt k k0 then (k, e) :: (k0, e0) :: rest
    else if keyLt k0 k then (k0, e0) :: mapInsert k e rest
    else (k, e) :: rest

/-- `storage_.erase(key)` (also `storage_.erase(it)` for the iterator locating
`key`): drop the node holding `key`. -/
def mapErase (k : Key) : List (Key × Entry) → List (Key × Entry)
  | [] => []
  | (k0, e0) :: rest => if k = k0 then rest else (k0, e0) :: mapErase k rest

/-- Dereference of a valid `storage_` iterator for `key`, i.e. ordered-index
lookup. -/
def mapFind (k : Key) : List (Key × Entry) → Option Entry
  | [] => none
  | (k0, e0) :: rest => if k = k0 then some e0 else mapFind k rest

/-- `storage_.lower_bound(key)`: the suffix starting at the first node whose
key is not `< key`. -/
def lowerBound (k : Key) (l : List (Key × Entry)) : List (Key × Entry) :=
  l.dropWhile (fun p => keyLt p.1 k)

/-- `key_to_storage_iter_[key] = it`: upsert of the key into the hash table
(`operator[]` inserts the key when absent, otherwise reassigns the mapped
iterator, leaving the key set unchanged). -/
def fastInsert (k : Key) (l : List Key) : List Key :=
  if k ∈ l then l else k :: l

/-- `key_to_storage_iter_.erase(it)`: drop the key from the hash table. -/
def fastErase (k : Key) : List Key → List Key
  | [] => []
  | k0 :: rest => if k = k0 then rest else k0 :: fastErase k rest

/-- The private state of `KVStorage`: the Ordered Index `storage_` and the
key set of the Fast Index `key_to_storage_iter_`. -/
structure State where
  storage : List (Key × Entry)
  fastKeys : List Key
deriving Repr, DecidableEq

/-- `expire_time = ttl == 0 ? TimePoint::max() : clock_.now() + seconds(ttl)`. -/
def expireOf (now ttl : Nat) : ETime :=
  if ttl = 0 then none else some (now + ttl)

/-- `void set(std::string key, std::string value, uint32_t ttl)`:
compute the expiry, `insert_or_assign` into `storage_`, then (re)install the
Fast Index locator for the key. -/
def set (s : State) (now : Nat) (k : Key) (v : Value) (ttl : Nat) : State :=
  { storage := mapInsert k ⟨v, expireOf now ttl⟩ s.storage
    fastKeys := fastInsert k s.fastKeys }

/-- `bool remove(std::string_view key)`: look the key up in the Fast Index;
absent ⇒ `false`; present ⇒ erase the located node from `storage_`, erase the
key from the hash table, return `true`. -/
def remove (s : State) (k : Key) : Bool × State :=
  if k ∈ s.fastKeys then
    (true, { storage := mapErase k s.storage, fastKeys := fastErase k s.fastKeys })
  else (false, s)

/-- `std::optional<std::string> get(std::string_view key) const`:
look the key up in the Fast Index; if present, dereference the locator and
test `expire_time > clock_.now()`.  (A dangling locator — key in the Fast
Index with no `storage_` node, which C++ would dereference as undefined
behavior — is embedded as the absent result.) -/
def get (s : State) (now : Nat) (k : Key) : Option Value × State :=
  if k ∈ s.fastKeys then
    match mapFind k s.storage with
    | some e => if e.isAlive now then (some e.value, s) else (none, s)
    | none => (none, s)
  else (none, s)

/-- The scan loop of `getManySorted`: walk the suffix in ascending key order
while fewer than `count` (here: while `remaining` more) results are collected,
appending each entry that passes `expire_time > now`. -/
def collectLive (now : Nat) : Nat → List (Key × Entry) → List (Key × Value)
  | _, [] => []
  | 0, _ :: _ => []
  | remaining + 1, (k, e) :: rest =>
    if e.isAlive now then (k, e.value) :: collectLive now remaining rest
    else collectLive now (remaining + 1) rest

/-- `std::vector<std::pair<std::string, std::string>> getManySorted(key, count) const`:
snapshot `now`, return empty when `count < 1`, else scan from
`storage_.lower_bound(key)` collecting up to `count` live entries. -/
def getManySorted (s : State) (now : Nat) (k : Key) (count : Nat) :
    List (Key × Value) × State :=
  if count < 1 then ([], s)
  else (collectLive now count (lowerBound k s.storage), s)

/-- The scan of `removeOneExpiredEntry`: first node of `storage_` in ascending
key order with `expire_time <= now`, returned as the (key, value) pair the
function builds before erasing. -/
def findFirstExpired (now : Nat) : List (Key × Entry) → Option (Key × Value)
  | [] => none
  | (k, e) :: rest =>
    if e.isAlive now then findFirstExpired now rest else some (k, e.value)

/-- `std::optional<std::pair<std::string, std::string>> removeOneExpiredEntry()`:
snapshot `now`, scan `storage_` in ascending key order; at the first expired
node, save the (key, value) pair, `storage_.erase(key)`, and return the pair;
if the scan completes, return absent.  NOTE (faithful to the source): the
function never erases anything from `key_to_storage_iter_`, so `fastKeys` is
returned unchanged even when a node is removed from `storage`. -/
def removeOneExpiredEntry (s : State) (now : Nat) : Option (Key × Value) × State :=
  match findFirstExpired now s.storage with
  | none => (none, s)
  | some (k, v) => (some (k, v), { storage := mapErase k s.storage, fastKeys := s.fastKeys })

/-- The constructor: start from empty indexes and apply `set` to each
`(key, value, ttl)` triple in input order (all at the construction-time clock
reading). -/
def construct (now : Nat) (entries : List (Key × Value × Nat)) : State :=
  entries.foldl (fun s e => set s now e.1 e.2.1 e.2.2) ⟨[], []⟩

/-- Fixed-point iteration of `removeOneExpiredEntry` at one clock snapshot:
call repeatedly until it returns absent (fuel-bounded; `drain` below supplies
enough fuel). -/
def drainFuel (now : Nat) : Nat → State → State
  | 0, s => s
  | fuel + 1, s =>
    match removeOneExpiredEntry s now with
    | (none, s1) => s1
    | (some _, s1) => drainFuel now fuel s1

/-- Calling `removeOneExpiredEntry` until it returns absent (each successful
call removes one `storage_` node, so `s.storage.length` calls always reach the
absent answer). -/
def drain (s : State) (now : Nat) : State :=
  drainFuel now s.storage.length s

/-- The `storage_` keys are strictly ascending (the `std::map` ordering
invariant for the sorted association list). -/
abbrev SortedKeys (l : List (Key × Entry)) : Prop :=
  List.Pairwise (fun a b => keyLt a.1 b.1 = true) l

/-- Invariant I1: the Fast Index key set equals the Ordered Index key set. -/
abbrev Inv (s : State) : Prop :=
  List.Perm s.fastKeys (s.storage.map Prod.fst)

/-- Well-formedness of a store state: sorted Ordered Index and invariant I1. -/
abbrev WF (s : State) : Prop :=
  SortedKeys s.storage ∧ Inv s

/-! ### Basic facts about the key order -/

theorem keyLt_irrefl (a : Key) : keyLt a a = false := by
  induction a with
  | nil => rfl
  | cons x xs ih => simp [keyLt, ih]

theorem keyLt_trans {a b c : Key} (hab : keyLt a b = true) (hbc : keyLt b c = true) :
    keyLt a c = true := by
  induction a generalizing b c with
  | nil =>
    cases c with
    | nil =>
      cases b with
      | nil => exact absurd hab (by simp [keyLt])
      | cons y ys => exact absurd hbc (by simp [keyLt])
    | cons z zs => simp [keyLt]
  | cons x xs ih =>
    cases b with
    | nil => exact absurd hab (by simp [keyLt])
    | cons y ys =>
      cases c with
      | nil => exact absurd hbc (by simp [keyLt])
      | cons z zs =>
        simp only [keyLt] at hab hbc ⊢
        rcases Nat.lt_trichotomy x y with hxy | hxy | hxy
        · rcases Nat.lt_trichotomy y z with hyz | hyz | hyz
          · simp [Nat.lt_trans hxy hyz]
          · subst hyz; simp [hxy]
          · by_cases hzy : y < z
            · simp [Nat.lt_trans hxy hzy]
            · simp [hyz, Nat.lt_asymm hyz] at hbc
        · subst hxy
          by_cases hxy2 : x < x
          · exact absurd hxy2 (Nat.lt_irrefl x)
          · simp [hxy2] at hab
            rcases Nat.lt_trichotomy x z with hyz | hyz | hyz
            · simp [hyz]
            · subst hyz
              simp only [Nat.lt_irrefl, if_false] at hbc ⊢
              exact ih hab hbc
            · simp [hyz, Nat.lt_asymm hyz] at hbc
        · simp [hxy, Nat.lt_asymm hxy] at hab

theorem keyLt_total {a b : Key} (hab : keyLt a b = false) (hba : keyLt b a = false) :
    a = b := by
  induction a generalizing b with
  | nil =>
    cases b with
    | nil => rfl
    | cons y ys => exact absurd hab (by simp [keyLt])
  | cons x xs ih =>
    cases b with
    | nil => exact absurd hba (by simp [keyLt])
    | cons y ys =>
      simp only [keyLt] at hab hba
      rcases Nat.lt_trichotomy x y with hxy | hxy | hxy
      · simp [hxy] at hab
      · subst hxy
        simp only [Nat.lt_irrefl, if_false] at hab hba
        exact congrArg (x :: ·) (ih hab hba)
      · simp [hxy] at hba

theorem keyLt_asymm {a b : Key} (hab : keyLt a b = true) : keyLt b a = false := by
  by_contra h
  have hba : keyLt b a = true := by
    cases hh : keyLt b a with
    | false => exact absurd hh h
    | true => rfl
  have : keyLt a a = true := keyLt_trans hab hba
  rw [keyLt_irrefl] at this
  exact Bool.false_ne_true this

theorem keyLt_ne {a b : Key} (hab : keyLt a b = true) : a ≠ b := by
  intro h
  subst h
  rw [keyLt_irrefl] at hab
  exact Bool.false_ne_true hab

/-! ### Facts about the ordered-index operations -/

theorem mapFind_eq_none_iff (k : Key) (l : List (Key × Entry)) :
    mapFind k l = none ↔ k ∉ l.map Prod.fst := by
  induction l with
  | nil => simp [mapFind]
  | cons p rest ih =>
    obtain ⟨k0, e0⟩ := p
    by_cases h : k = k0
    · subst h; simp [mapFind]
    · simp [mapFind, h, ih]

theorem mapFind_mapInsert_self (k : Key) (e : Entry) (l : List (Key × Entry)) :
    mapFind k (mapInsert k e l) = some e := by
  induction l with
  | nil => simp [mapInsert, mapFind]
  | cons p rest ih =>
    obtain ⟨k0, e0⟩ := p
    by_cases h1 : keyLt k k0 = true
    · simp [mapInsert, h1, mapFind]
    · by_cases h2 : keyLt k0 k = true
      · have hne : k ≠ k0 := fun h => keyLt_ne h2 h.symm
        simp [mapInsert, h1, h2, mapFind, hne, ih]
      · simp [mapInsert, h1, h2, mapFind]

theorem mem_of_mapFind (k : Key) (e : Entry) (l : List (Key × Entry))
    (h : mapFind k l = some e) : (k, e) ∈ l := by
  induction l with
  | nil => simp [mapFind] at h
  | cons p rest ih =>
    obtain ⟨k0, e0⟩ := p
    by_cases hk : k = k0
    · subst hk
      simp [mapFind] at h
      subst h
      exact List.mem_cons_self _ _
    · simp [mapFind, hk] at h
      exact List.mem_cons_of_mem _ (ih h)

theorem nodup_keys_of_sorted {l : List (Key × Entry)} (h : SortedKeys l) :
    (l.map Prod.fst).Nodup := by
  exact List.pairwise_map.mpr (h.imp fun hab => keyLt_ne hab)

theorem mapFind_of_mem_nodup {l : List (Key × Entry)} {k : Key} {e : Entry}
    (hnd : (l.map Prod.fst).Nodup) (hmem : (k, e) ∈ l) : mapFind k l = some e := by
  induction l with
  | nil => simp at hmem
  | cons p rest ih =>
    obtain ⟨k0, e0⟩ := p
    simp only [List.map_cons, List.nodup_cons] at hnd
    rcases List.mem_cons.mp hmem with h | h
    · rw [Prod.mk.injEq] at h
      obtain ⟨h1, h2⟩ := h
      subst h1; subst h2
      simp [mapFind]
    · have hk : k ≠ k0 := by
        intro hkk
        subst hkk
        exact hnd.1 (List.mem_map.mpr ⟨(k, e), h, rfl⟩)
      simp [mapFind, hk]
      exact ih hnd.2 h

theorem keys_mapErase_sublist (k : Key) (l : List (Key × Entry)) :
    (mapErase k l).Sublist l := by
  induction l with
  | nil => simp [mapErase]
  | cons p rest ih =>
    obtain ⟨k0, e0⟩ := p
    by_cases h : k = k0
    · simp [mapErase, h]
    · simpa [mapErase, h] using ih.cons₂ (k0, e0)

theorem mapFind_mapErase_self {l : List (Key × Entry)} {k : Key}
    (hnd : (l.map Prod.fst).Nodup) : mapFind k (mapErase k l) = none := by
  induction l with
  | nil => simp [mapErase, mapFind]
  | cons p rest ih =>
    obtain ⟨k0, e0⟩ := p
    simp only [List.map_cons, List.nodup_cons] at hnd
    by_cases h : k = k0
    · subst h
      simp only [mapErase, if_pos rfl]
      rw [mapFind_eq_none_iff]
      exact hnd.1
    · simp [mapErase, h, mapFind, ih hnd.2]

theorem not_mem_fastErase {l : List Key} {k : Key} (hnd : l.Nodup) :
    k ∉ fastErase k l := by
  induction l with
  | nil => simp [fastErase]
  | cons k0 rest ih =>
    simp only [List.nodup_cons] at hnd
    by_cases h : k = k0
    · subst h
      simpa [fastErase] using hnd.1
    · simp only [fastErase, if_neg h, List.mem_cons]
      rintro (h1 | h1)
      · exact h h1
      · exact ih hnd.2 h1

theorem mem_fastErase_of_mem {l : List Key} {k j : Key} (hj : j ∈ l) (hne : j ≠ k) :
    j ∈ fastErase k l := by
  induction l with
  | nil => simp at hj
  | cons k0 rest ih =>
    by_cases h : k = k0
    · subst h
      rcases List.mem_cons.mp hj with h1 | h1
      · exact absurd h1 hne
      · simpa [fastErase] using h1
    · rcases List.mem_cons.mp hj with h1 | h1
      · simp [fastErase, h, h1]
      · simp only [fastErase, if_neg h, List.mem_cons]
        exact Or.inr (ih h1)

/-! ### The range-scan loop versus filtering -/

theorem collectLive_eq (now : Nat) (c : Nat) (l : List (Key × Entry)) :
    collectLive now c l =
      ((l.filter (fun p => p.2.isAlive now)).map (fun p => (p.1, p.2.value))).take c := by
  induction l generalizing c with
  | nil => cases c <;> simp [collectLive]
  | cons p rest ih =>
    obtain ⟨k, e⟩ := p
    cases c with
    | zero => simp [collectLive]
    | succ c0 =>
      by_cases h : e.isAlive now
      · simp [collectLive, h, ih]
      · have hb : e.isAlive now = false := by
          cases hh : e.isAlive now with
          | false => rfl
          | true => exact absurd hh h
        simp [collectLive, hb, ih]

theorem filter_lowerBound {l : List (Key × Entry)} (now : Nat) (k : Key)
    (hs : SortedKeys l) :
    (lowerBound k l).filter (fun p => p.2.isAlive now) =
      l.filter (fun p => !keyLt p.1 k && p.2.isAlive now) := by
  induction l with
  | nil => rfl
  | cons p0 rest ih =>
    obtain ⟨hp0, hrest⟩ := List.pairwise_cons.mp hs
    by_cases h : keyLt p0.1 k = true
    · have h1 : lowerBound k (p0 :: rest) = lowerBound k rest := by
        simp [lowerBound, List.dropWhile_cons, h]
      rw [h1, ih hrest, List.filter_cons]
      simp [h]
    · have h0 : keyLt p0.1 k = false := by
        cases hh : keyLt p0.1 k with
        | false => rfl
        | true => exact absurd hh h
      have h1 : lowerBound k (p0 :: rest) = p0 :: rest := by
        simp [lowerBound, List.dropWhile_cons, h0]
      have hall : ∀ p ∈ rest, keyLt p.1 k = false := by
        intro p hp
        cases hh : keyLt p.1 k with
        | false => rfl
        | true =>
          have : keyLt p0.1 k = true := keyLt_trans (hp0 p hp) hh
          rw [h0] at this
          exact absurd this Bool.false_ne_true
      rw [h1]
      rw [List.filter_cons, List.filter_cons]
      have hcong : rest.filter (fun p => p.2.isAlive now) =
          rest.filter (fun p => !keyLt p.1 k && p.2.isAlive now) := by
        apply List.filter_congr
        intro p hp
        rw [hall p hp]
        simp
      simp only [h0]
      by_cases ha : p0.2.isAlive now
      · simp only [ha, Bool.not_false, Bool.true_and, if_pos, cond_true]
        rw [hcong]
      · have hb : p0.2.isAlive now = false := by
          cases hh : p0.2.isAlive now with
          | false => rfl
          | true => exact absurd hh ha
        simp only [hb, Bool.not_false, Bool.true_and, cond_false]
        rw [hcong]

theorem getManySorted_eq (s : State) (now : Nat) (k : Key) (count : Nat)
    (hs : SortedKeys s.storage) :
    (getManySorted s now k count).1 =
      ((s.storage.filter (fun p => !keyLt p.1 k && p.2.isAlive now)).map
        (fun p => (p.1, p.2.value))).take count := by
  unfold getManySorted
  by_cases h : count < 1
  · have : count = 0 := Nat.lt_one_iff.mp h
    subst this
    simp
  · simp only [if_neg h]
    rw [collectLive_eq, filter_lowerBound now k hs]

/-! ### The eviction scan -/

theorem findFirstExpired_eq_none_iff (now : Nat) (l : List (Key × Entry)) :
    findFirstExpired now l = none ↔ ∀ p ∈ l, p.2.isAlive now = true := by
  induction l with
  | nil => simp [findFirstExpired]
  | cons p rest ih =>
    obtain ⟨k, e⟩ := p
    by_cases h : e.isAlive now
    · simp [findFirstExpired, h, ih]
    · have hb : e.isAlive now = false := by
        cases hh : e.isAlive now with
        | false => rfl
        | true => exact absurd hh h
      simp [findFirstExpired, hb]

theorem findFirstExpired_mem {now : Nat} {l : List (Key × Entry)} {k : Key} {v : Value}
    (h : findFirstExpired now l = some (k, v)) :
    ∃ e, (k, e) ∈ l ∧ e.isAlive now = false ∧ e.value = v := by
  induction l with
  | nil => simp [findFirstExpired] at h
  | cons p rest ih =>
    obtain ⟨k0, e0⟩ := p
    by_cases ha : e0.isAlive now
    · rw [findFirstExpired, if_pos ha] at h
      obtain ⟨e, he, h1, h2⟩ := ih h
      exact ⟨e, List.mem_cons_of_mem _ he, h1, h2⟩
    · have hb : e0.isAlive now = false := by
        cases hh : e0.isAlive now with
        | false => rfl
        | true => exact absurd hh ha
      rw [findFirstExpired, if_neg ha] at h
      injection h with h
      rw [Prod.mk.injEq] at h
      obtain ⟨h1, h2⟩ := h
      subst h1
      exact ⟨e0, List.mem_cons_self _ _, hb, h2⟩

theorem findFirstExpired_min {now : Nat} {l : List (Key × Entry)} {k : Key} {v : Value}
    (hs : SortedKeys l) (h : findFirstExpired now l = some (k, v)) :
    ∀ k2 e2, (k2, e2) ∈ l → e2.isAlive now = false → k2 ≠ k → keyLt k k2 = true := by
  induction l with
  | nil => simp [findFirstExpired] at h
  | cons p rest ih =>
    obtain ⟨k0, e0⟩ := p
    obtain ⟨hp0, hrest⟩ := List.pairwise_cons.mp hs
    intro k2 e2 hmem hdead hne
    by_cases ha : e0.isAlive now
    · rw [findFirstExpired, if_pos ha] at h
      rcases List.mem_cons.mp hmem with h1 | h1
      · rw [Prod.mk.injEq] at h1
        obtain ⟨h1, h2⟩ := h1
        subst h1; subst h2
        rw [hdead] at ha
        exact absurd ha Bool.false_ne_true
      · exact ih hrest h k2 e2 h1 hdead hne
    · rw [findFirstExpired, if_neg ha] at h
      injection h with h
      rw [Prod.mk.injEq] at h
      obtain ⟨h1, _⟩ := h
      subst h1
      rcases List.mem_cons.mp hmem with h1 | h1
      · rw [Prod.mk.injEq] at h1
        exact absurd h1.1 hne
      · exact hp0 (k2, e2) h1

theorem mapErase_length_of_mem {l : List (Key × Entry)} {k : Key}
    (h : k ∈ l.map Prod.fst) : (mapErase k l).length + 1 = l.length := by
  induction l with
  | nil => simp at h
  | cons p rest ih =>
    obtain ⟨k0, e0⟩ := p
    by_cases hk : k = k0
    · simp [mapErase, hk]
    · simp only [List.map_cons, List.mem_cons] at h
      rcases h with h | h
      · exact absurd h hk
      · simp only [mapErase, if_neg hk, List.length_cons]
        rw [← ih h]

theorem filter_mapErase_firstExpired {now : Nat} {l : List (Key × Entry)} {k : Key}
    {v : Value} (hnd : (l.map Prod.fst).Nodup) (h : findFirstExpired now l = some (k, v)) :
    (mapErase k l).filter (fun p => p.2.isAlive now) =
      l.filter (fun p => p.2.isAlive now) := by
  induction l with
  | nil => simp [findFirstExpired] at h
  | cons p rest ih =>
    obtain ⟨k0, e0⟩ := p
    simp only [List.map_cons, List.nodup_cons] at hnd
    by_cases ha : e0.isAlive now
    · rw [findFirstExpired, if_pos ha] at h
      obtain ⟨e, he, _, _⟩ := findFirstExpired_mem h
      have hk : k ≠ k0 := by
        intro hkk
        subst hkk
        exact hnd.1 (List.mem_map.mpr ⟨(k, e), he, rfl⟩)
      rw [mapErase, if_neg hk]
      rw [List.filter_cons, List.filter_cons]
      simp only [ha]
      rw [ih hnd.2 h]
    · rw [findFirstExpired, if_neg ha] at h
      injection h with h
      rw [Prod.mk.injEq] at h
      obtain ⟨h1, _⟩ := h
      subst h1
      have hb : e0.isAlive now = false := by
        cases hh : e0.isAlive now with
        | false => rfl
        | true => exact absurd hh ha
      rw [mapErase, if_pos rfl, List.filter_cons]
      simp [hb]

theorem mem_fastInsert_self (k : Key) (l : List Key) : k ∈ fastInsert k l := by
  unfold fastInsert
  by_cases h : k ∈ l
  · simp [h]
  · simp [h]

theorem drainFuel_spec (now : Nat) (fuel : Nat) :
    ∀ s : State, SortedKeys s.storage → s.storage.length ≤ fuel →
      (drainFuel now fuel s).storage = s.storage.filter (fun p => p.2.isAlive now) ∧
      (drainFuel now fuel s).fastKeys = s.fastKeys := by
  induction fuel with
  | zero =>
    intro s hs hlen
    have hnil : s.storage = [] := List.eq_nil_of_length_eq_zero (Nat.le_zero.mp hlen)
    constructor
    · show s.storage = _
      rw [hnil]
      rfl
    · rfl
  | succ fuel ih =>
    intro s hs hlen
    cases hfe : findFirstExpired now s.storage with
    | none =>
      have hall := (findFirstExpired_eq_none_iff now s.storage).mp hfe
      have hfix : s.storage.filter (fun p => p.2.isAlive now) = s.storage :=
        List.filter_eq_self.mpr hall
      simp only [drainFuel, removeOneExpiredEntry, hfe]
      exact ⟨hfix.symm, trivial⟩
    | some kv =>
      obtain ⟨k, v⟩ := kv
      obtain ⟨e, hmem, hdead, hval⟩ := findFirstExpired_mem hfe
      have hkmem : k ∈ s.storage.map Prod.fst := List.mem_map.mpr ⟨(k, e), hmem, rfl⟩
      have hlen2 : (mapErase k s.storage).length ≤ fuel := by
        have := mapErase_length_of_mem hkmem
        omega
      have hs2 : SortedKeys (mapErase k s.storage) :=
        List.Pairwise.sublist (keys_mapErase_sublist k s.storage) hs
      have hres := ih ⟨mapErase k s.storage, s.fastKeys⟩ hs2 hlen2
      simp only [drainFuel, removeOneExpiredEntry, hfe]
      refine ⟨?_, hres.2⟩
      rw [hres.1]
      exact filter_mapErase_firstExpired (nodup_keys_of_sorted hs) hfe

theorem drain_spec (s : State) (now : Nat) (hs : SortedKeys s.storage) :
    (drain s now).storage = s.storage.filter (fun p => p.2.isAlive now) ∧
    (drain s now).fastKeys = s.fastKeys :=
  drainFuel_spec now s.storage.length s hs (Nat.le_refl _)

/-! ### Claim theorems -/

/-- Claim C9: `get` and `getManySorted` are read-only — for every store state,
clock value and arguments they leave both the Ordered Index and the Fast Index
exactly as they were, also when the lookup or scan meets expired entries. -/
theorem get_getManySorted_readonly (s : State) (now : Nat) (k : Key) (count : Nat) :
    (get s now k).2 = s ∧ (getManySorted s now k count).2 = s := by
  constructor
  · unfold get
    by_cases h : k ∈ s.fastKeys
    · simp only [if_pos h]
      cases mapFind k s.storage with
      | none => rfl
      | some e => by_cases ha : e.isAlive now <;> simp [ha]
    · simp [h]
  · unfold getManySorted
    by_cases h : count < 1 <;> simp [h]

/-- Claim C4: `get` returns absent when the key is not in the store; for a
present key it returns the stored value exactly when the entry is alive
(`expire_at = never` or `now < expire_at`), and absent when expired — in
particular at the instant `now = expire_at`. -/
theorem get_spec (s : State) (now : Nat) (k : Key) (h : Inv s) :
    (mapFind k s.storage = none → (get s now k).1 = none) ∧
    (∀ e, mapFind k s.storage = some e →
      (get s now k).1 = if e.isAlive now then some e.value else none) ∧
    (∀ e t, mapFind k s.storage = some e → e.expire_time = some t → t ≤ now →
      (get s now k).1 = none) := by
  have hmemiff : k ∈ s.fastKeys ↔ k ∈ s.storage.map Prod.fst := h.mem_iff
  refine ⟨?_, ?_, ?_⟩
  · intro hnone
    have hnot : k ∉ s.fastKeys := fun hk =>
      (mapFind_eq_none_iff k s.storage).mp hnone (hmemiff.mp hk)
    simp [get, hnot]
  · intro e he
    have hk : k ∈ s.fastKeys := by
      apply hmemiff.mpr
      exact List.mem_map.mpr ⟨(k, e), mem_of_mapFind k e s.storage he, rfl⟩
    by_cases ha : e.isAlive now
    · simp [get, hk, he, ha]
    · simp [get, hk, he, ha]
  · intro e t he ht hle
    have hdead : e.isAlive now = false := by
      simp [Entry.isAlive, ht, Nat.not_lt.mpr hle]
    have hk : k ∈ s.fastKeys := by
      apply hmemiff.mpr
      exact List.mem_map.mpr ⟨(k, e), mem_of_mapFind k e s.storage he, rfl⟩
    simp [get, hk, he, hdead]

/-- Witness for C4: a store holding key `[97]` with value `[118]` expiring at
instant 5; read back exactly at `now = 5` — the entry is present but expired,
so `get` answers absent. -/
theorem get_spec_witness :
    (get (State.mk [([97], Entry.mk [118] (some 5))] [[97]]) 5 [97]).1 = none :=
  (get_spec (State.mk [([97], Entry.mk [118] (some 5))] [[97]]) 5 [97]
      (by decide)).2.2 (Entry.mk [118] (some 5)) 5 rfl rfl (by decide)

/-- Claim C5: `remove` returns false and changes nothing when the key is
absent; when the key is present — live or already expired — it deletes the
entry from both indexes and returns true, and a second consecutive `remove` of
the same key returns false. -/
theorem remove_spec (s : State) (k : Key) (h : WF s) :
    (mapFind k s.storage = none → remove s k = (false, s)) ∧
    (∀ e, mapFind k s.storage = some e →
      (remove s k).1 = true ∧
      mapFind k (remove s k).2.storage = none ∧
      k ∉ (remove s k).2.fastKeys ∧
      (remove (remove s k).2 k).1 = false) := by
  obtain ⟨hsort, hinv⟩ := h
  have hmemiff : k ∈ s.fastKeys ↔ k ∈ s.storage.map Prod.fst := hinv.mem_iff
  have hnd : (s.storage.map Prod.fst).Nodup := nodup_keys_of_sorted hsort
  constructor
  · intro hnone
    have hnot : k ∉ s.fastKeys := fun hk =>
      (mapFind_eq_none_iff k s.storage).mp hnone (hmemiff.mp hk)
    simp [remove, hnot]
  · intro e he
    have hk : k ∈ s.fastKeys := by
      apply hmemiff.mpr
      exact List.mem_map.mpr ⟨(k, e), mem_of_mapFind k e s.storage he, rfl⟩
    have hndf : s.fastKeys.Nodup := hinv.symm.nodup hnd
    have hout : k ∉ fastErase k s.fastKeys := not_mem_fastErase hndf
    refine ⟨by simp [remove, hk], ?_, ?_, ?_⟩
    · simp only [remove, if_pos hk]
      exact mapFind_mapErase_self hnd
    · simp only [remove, if_pos hk]
      exact hout
    · simp [remove, hk, hout]

/-- Witness for C5: removing the key `[97]` whose entry already expired at
instant 1 — removal still succeeds, both indexes drop the key, and the second
removal reports false. -/
theorem remove_spec_witness :
    (remove (State.mk [([97], Entry.mk [118] (some 1))] [[97]]) [97]).1 = true ∧
    mapFind [97]
        (remove (State.mk [([97], Entry.mk [118] (some 1))] [[97]]) [97]).2.storage
      = none ∧
    [97] ∉ (remove (State.mk [([97], Entry.mk [118] (some 1))] [[97]]) [97]).2.fastKeys ∧
    (remove (remove (State.mk [([97], Entry.mk [118] (some 1))] [[97]]) [97]).2 [97]).1
      = false :=
  (remove_spec (State.mk [([97], Entry.mk [118] (some 1))] [[97]]) [97]
      (by constructor <;> decide)).2 (Entry.mk [118] (some 1)) rfl

/-- Claim C7: `set` always succeeds, storing `expire_at = never` when
`ttl = 0` and `expire_at = now + ttl` otherwise, for a new key and for an
overwrite alike; an entry set with `ttl = 0` is still returned by `get` after
arbitrarily large clock advances. -/
theorem set_spec (s : State) (now : Nat) (k : Key) (v : Value) (ttl : Nat) :
    (ttl = 0 → mapFind k (set s now k v ttl).storage = some (Entry.mk v none)) ∧
    (ttl ≠ 0 →
      mapFind k (set s now k v ttl).storage = some (Entry.mk v (some (now + ttl)))) ∧
    (∀ later, (get (set s now k v 0) later k).1 = some v) := by
  refine ⟨?_, ?_, ?_⟩
  · intro h0
    simp only [set, expireOf, if_pos h0]
    exact mapFind_mapInsert_self k (Entry.mk v none) s.storage
  · intro h0
    simp only [set, expireOf, if_neg h0]
    exact mapFind_mapInsert_self k (Entry.mk v (some (now + ttl))) s.storage
  · intro later
    have hk : k ∈ (set s now k v 0).fastKeys := mem_fastInsert_self k s.fastKeys
    have hfind : mapFind k (set s now k v 0).storage = some (Entry.mk v none) := by
      simp only [set, expireOf, if_pos rfl]
      exact mapFind_mapInsert_self k (Entry.mk v none) s.storage
    simp [get, hk, hfind, Entry.isAlive]

/-- Witness for C7: setting key `[97]` with `ttl = 0` at instant 3 stores the
never-expiring entry, and `get` still returns the value at instant 1000000. -/
theorem set_spec_witness :
    mapFind [97] (set (State.mk [] []) 3 [97] [118] 0).storage
      = some (Entry.mk [118] none) ∧
    (get (set (State.mk [] []) 3 [97] [118] 0) 1000000 [97]).1 = some [118] :=
  ⟨(set_spec (State.mk [] []) 3 [97] [118] 0).1 rfl,
   (set_spec (State.mk [] []) 3 [97] [118] 0).2.2 1000000⟩

/-- Claim C1 (refuted by the code): invariant I1 fails after
`removeOneExpiredEntry`.  Build a store through the public surface
(construction with one triple, `ttl = 1`, clock at 0), advance the clock to 2
and evict: the key is gone from the Ordered Index but still present in the
Fast Index, so the two key sets differ. -/
theorem inv_broken_by_removeOneExpiredEntry :
    ¬ Inv (removeOneExpiredEntry (construct 0 [([97], [118], 1)]) 2).2 := by
  decide

/-- Claim C2 (refuted by the code in its Fast-Index clause): at `now = 2` the
store holds the single entry `[97] ↦ [118]` expiring at instant 1;
`removeOneExpiredEntry` returns the pair and erases the node from the Ordered
Index, yet the Fast Index still contains the key afterwards. -/
theorem removeOneExpiredEntry_leaves_fastIndex :
    (removeOneExpiredEntry (State.mk [([97], Entry.mk [118] (some 1))] [[97]]) 2).1
        = some ([97], [118]) ∧
    (removeOneExpiredEntry (State.mk [([97], Entry.mk [118] (some 1))] [[97]]) 2).2.storage
        = [] ∧
    [97] ∈ (removeOneExpiredEntry
        (State.mk [([97], Entry.mk [118] (some 1))] [[97]]) 2).2.fastKeys := by
  decide

/-- Claim C3: draining — calling `removeOneExpiredEntry` repeatedly (at one
clock snapshot) until it returns absent — removes from the store exactly the
entries expired at that snapshot, and every live entry is still retrievable by
`get` afterwards. -/
theorem drain_removes_exactly_expired (s : State) (now : Nat) (h : WF s) :
    (drain s now).storage = s.storage.filter (fun p => p.2.isAlive now) ∧
    (∀ k e, (k, e) ∈ s.storage → e.isAlive now = true →
      (get (drain s now) now k).1 = some e.value) := by
  obtain ⟨hsort, hinv⟩ := h
  obtain ⟨hst, hfk⟩ := drain_spec s now hsort
  refine ⟨hst, ?_⟩
  intro k e hmem halive
  have hk : k ∈ (drain s now).fastKeys := by
    rw [hfk]
    exact hinv.mem_iff.mpr (List.mem_map.mpr ⟨(k, e), hmem, rfl⟩)
  have hmemf : (k, e) ∈ s.storage.filter (fun p => p.2.isAlive now) :=
    List.mem_filter.mpr ⟨hmem, halive⟩
  have hndf : ((s.storage.filter (fun p => p.2.isAlive now)).map Prod.fst).Nodup :=
    ((List.filter_sublist s.storage).map Prod.fst).nodup (nodup_keys_of_sorted hsort)
  have hfind : mapFind k (drain s now).storage = some e := by
    rw [hst]
    exact mapFind_of_mem_nodup hndf hmemf
  simp [get, hk, hfind, halive]

/-- Witness for C3: a store with `[97]` expired (deadline 1) and `[98]` never
expiring, drained at instant 5 — only the live entry survives and `get` still
returns its value. -/
theorem drain_removes_exactly_expired_witness :
    (drain (State.mk [([97], Entry.mk [1] (some 1)), ([98], Entry.mk [2] none)]
        [[97], [98]]) 5).storage = [([98], Entry.mk [2] none)] ∧
    (get (drain (State.mk [([97], Entry.mk [1] (some 1)), ([98], Entry.mk [2] none)]
        [[97], [98]]) 5) 5 [98]).1 = some [2] := by
  have h := drain_removes_exactly_expired
    (State.mk [([97], Entry.mk [1] (some 1)), ([98], Entry.mk [2] none)] [[97], [98]]) 5
    (by constructor <;> decide)
  refine ⟨?_, h.2 [98] (Entry.mk [2] none) (by decide) rfl⟩
  rw [h.1]
  decide

/-- Claim C6: `getManySorted` returns at most `count` pairs, with strictly
increasing keys all `≥ startKey`, none of them expired at the call's snapshot;
it returns exactly the first `count` qualifying (live, in-range) entries — all
of them when fewer than `count` exist — and `count = 0` yields the empty
sequence. -/
theorem getManySorted_spec (s : State) (now : Nat) (k : Key) (count : Nat)
    (hs : SortedKeys s.storage) :
    (getManySorted s now k count).1 =
      ((s.storage.filter (fun p => !keyLt p.1 k && p.2.isAlive now)).map
        (fun p => (p.1, p.2.value))).take count ∧
    (getManySorted s now k count).1.length ≤ count ∧
    List.Pairwise (fun a b => keyLt a.1 b.1 = true) (getManySorted s now k count).1 ∧
    (∀ p ∈ (getManySorted s now k count).1, keyLt p.1 k = false) ∧
    (∀ p ∈ (getManySorted s now k count).1,
      ∃ e, (p.1, e) ∈ s.storage ∧ e.isAlive now = true ∧ e.value = p.2) ∧
    (count = 0 → (getManySorted s now k count).1 = []) := by
  have hmain := getManySorted_eq s now k count hs
  have hmem0 : ∀ p ∈ (getManySorted s now k count).1,
      ∃ q ∈ s.storage, keyLt q.1 k = false ∧ q.2.isAlive now = true ∧
        p = (q.1, q.2.value) := by
    intro p hp
    rw [hmain] at hp
    have hp2 := List.mem_of_mem_take hp
    obtain ⟨q, hq, hqe⟩ := List.mem_map.mp hp2
    obtain ⟨hqs, hqb⟩ := List.mem_filter.mp hq
    rw [Bool.and_eq_true, Bool.not_eq_true'] at hqb
    exact ⟨q, hqs, hqb.1, hqb.2, hqe.symm⟩
  refine ⟨hmain, ?_, ?_, ?_, ?_, ?_⟩
  · rw [hmain]
    exact List.length_take_le count _
  · rw [hmain]
    apply List.Pairwise.sublist (List.take_sublist count _)
    apply List.pairwise_map.mpr
    exact List.Pairwise.sublist (List.filter_sublist s.storage) hs
  · intro p hp
    obtain ⟨q, _, hlt, _, hpq⟩ := hmem0 p hp
    rw [hpq]
    exact hlt
  · intro p hp
    obtain ⟨q, hqs, _, halive, hpq⟩ := hmem0 p hp
    refine ⟨q.2, ?_, halive, ?_⟩
    · rw [hpq]
      exact hqs
    · rw [hpq]
  · intro h0
    rw [hmain, h0]
    rfl

/-- Witness for C6: the README example — live entries at keys
`[97], [98], [100], [101]` (all expiring at instant 10), queried at instant 5
from start key `[99]` with `count = 2` — yields the `[100]` and `[101]`
entries, in order. -/
theorem getManySorted_spec_witness :
    (getManySorted (State.mk
        [([97], Entry.mk [11] (some 10)), ([98], Entry.mk [12] (some 10)),
         ([100], Entry.mk [13] (some 10)), ([101], Entry.mk [14] (some 10))]
        [[97], [98], [100], [101]]) 5 [99] 2).1 = [([100], [13]), ([101], [14])] ∧
    (getManySorted (State.mk
        [([97], Entry.mk [11] (some 10)), ([98], Entry.mk [12] (some 10)),
         ([100], Entry.mk [13] (some 10)), ([101], Entry.mk [14] (some 10))]
        [[97], [98], [100], [101]]) 5 [99] 2).1.length ≤ 2 := by
  have h := getManySorted_spec (State.mk
      [([97], Entry.mk [11] (some 10)), ([98], Entry.mk [12] (some 10)),
       ([100], Entry.mk [13] (some 10)), ([101], Entry.mk [14] (some 10))]
      [[97], [98], [100], [101]]) 5 [99] 2 (by decide)
  refine ⟨?_, h.2.1⟩
  rw [h.1]
  decide

/-- Claim C8: round trip — `set(key, value, ttl)` with `ttl > 0` followed by
`get(key)` while the clock is before the computed deadline returns exactly the
value; after a second `set` on the same key, the store holds only the latest
write's value and TTL, and `get` answers according to them. -/
theorem set_get_roundtrip (s : State) (now now2 : Nat) (k : Key) (v : Value)
    (ttl : Nat) (httl : 0 < ttl) (hlive : now2 < now + ttl) :
    (get (set s now k v ttl) now2 k).1 = some v ∧
    (∀ v2 ttl2 now3 now4,
      mapFind k (set (set s now k v ttl) now3 k v2 ttl2).storage
        = some (Entry.mk v2 (expireOf now3 ttl2)) ∧
      (get (set (set s now k v ttl) now3 k v2 ttl2) now4 k).1 =
        (if (Entry.mk v2 (expireOf now3 ttl2)).isAlive now4 then some v2 else none)) := by
  constructor
  · have hk : k ∈ (set s now k v ttl).fastKeys := mem_fastInsert_self k s.fastKeys
    have hfind : mapFind k (set s now k v ttl).storage
        = some (Entry.mk v (some (now + ttl))) := by
      simp only [set, expireOf, if_neg (Nat.pos_iff_ne_zero.mp httl)]
      exact mapFind_mapInsert_self k _ s.storage
    simp [get, hk, hfind, Entry.isAlive, hlive]
  · intro v2 ttl2 now3 now4
    have hk : k ∈ (set (set s now k v ttl) now3 k v2 ttl2).fastKeys :=
      mem_fastInsert_self k _
    have hfind : mapFind k (set (set s now k v ttl) now3 k v2 ttl2).storage
        = some (Entry.mk v2 (expireOf now3 ttl2)) :=
      mapFind_mapInsert_self k _ _
    refine ⟨hfind, ?_⟩
    by_cases ha : (Entry.mk v2 (expireOf now3 ttl2)).isAlive now4
    · simp [get, hk, hfind, ha]
    · simp [get, hk, hfind, ha]

/-- Witness for C8: write `[118]` under key `[97]` with `ttl = 10` at instant
0, read at instant 5 — the value comes back; overwrite at instant 7 with
`[119]` and `ttl = 0`, read at instant 1000 — only the latest write shows. -/
theorem set_get_roundtrip_witness :
    (get (set (State.mk [] []) 0 [97] [118] 10) 5 [97]).1 = some [118] ∧
    (get (set (set (State.mk [] []) 0 [97] [118] 10) 7 [97] [119] 0) 1000 [97]).1
      = some [119] := by
  have h := set_get_roundtrip (State.mk [] []) 0 5 [97] [118] 10 (by decide) (by decide)
  refine ⟨h.1, ?_⟩
  have h2 := (h.2 [119] 0 7 1000).2
  simpa [Entry.isAlive, expireOf] using h2

/-- Claim C10: whenever at least one entry is expired at the snapshot,
`removeOneExpiredEntry` deterministically removes and returns the expired entry
with the lexicographically smallest key among all expired entries. -/
theorem removeOneExpiredEntry_min (s : State) (now : Nat) (hs : SortedKeys s.storage)
    (hex : ∃ p ∈ s.storage, p.2.isAlive now = false) :
    ((removeOneExpiredEntry s now).1.isSome = true) ∧
    (∀ k v, (removeOneExpiredEntry s now).1 = some (k, v) →
      (∃ e, (k, e) ∈ s.storage ∧ e.isAlive now = false ∧ e.value = v) ∧
      (removeOneExpiredEntry s now).2.storage = mapErase k s.storage ∧
      (∀ k2 e2, (k2, e2) ∈ s.storage → e2.isAlive now = false → k2 ≠ k →
        keyLt k k2 = true)) := by
  cases hfe : findFirstExpired now s.storage with
  | none =>
    exfalso
    obtain ⟨p, hmem, hdead⟩ := hex
    have := (findFirstExpired_eq_none_iff now s.storage).mp hfe p hmem
    rw [hdead] at this
    exact Bool.false_ne_true this
  | some kv =>
    obtain ⟨k0, v0⟩ := kv
    constructor
    · simp [removeOneExpiredEntry, hfe]
    · intro k v hret
      have hret2 : (removeOneExpiredEntry s now).1 = some (k0, v0) := by
        simp [removeOneExpiredEntry, hfe]
      rw [hret2] at hret
      injection hret with hret
      rw [Prod.mk.injEq] at hret
      obtain ⟨hk, hv⟩ := hret
      subst hk; subst hv
      obtain ⟨e, hmem, hdead, hval⟩ := findFirstExpired_mem hfe
      refine ⟨⟨e, hmem, hdead, hval⟩, ?_, ?_⟩
      · simp [removeOneExpiredEntry, hfe]
      · exact findFirstExpired_min hs hfe

/-- Witness for C10: entries at keys `[97]` (alive), `[98]` (expired) and
`[99]` (expired) at instant 5 — eviction erases key `[98]`, the smallest
expired key, which in particular precedes the other expired key `[99]`. -/
theorem removeOneExpiredEntry_min_witness :
    (removeOneExpiredEntry (State.mk
        [([97], Entry.mk [10] none), ([98], Entry.mk [20] (some 3)),
         ([99], Entry.mk [30] (some 2))] [[97], [98], [99]]) 5).2.storage
      = mapErase [98] (State.mk
        [([97], Entry.mk [10] none), ([98], Entry.mk [20] (some 3)),
         ([99], Entry.mk [30] (some 2))] [[97], [98], [99]]).storage ∧
    keyLt [98] [99] = true := by
  have h := (removeOneExpiredEntry_min (State.mk
      [([97], Entry.mk [10] none), ([98], Entry.mk [20] (some 3)),
       ([99], Entry.mk [30] (some 2))] [[97], [98], [99]]) 5 (by decide)
      ⟨([98], Entry.mk [20] (some 3)), by decide, rfl⟩).2 [98] [20] rfl
  exact ⟨h.2.1, h.2.2 [99] (Entry.mk [30] (some 2)) (by decide) rfl (by decide)⟩

end KVStorage
